import Mathlib

set_option maxHeartbeats 1000000
set_option maxRecDepth 4000

/-!
Shallow embedding of `src/xplat/rename.py`.

Strings are modelled as `List Char`.  The Unicode-dependent character
predicates of Python (`str.isspace`, `str.isalnum`, `str.lower`,
`str.title`'s case mappings) are embedded as concrete Lean functions:
the whitespace class is complete (CPython's `Py_UNICODE_ISSPACE` accepts
exactly the 29 tabulated code points), while the alphanumeric class and
the case mappings carry the full ASCII range plus the non-ASCII code
points this development evaluates (é/É); Python's tables extend them to
all of Unicode in the same shape.
-/

/-- Python `str.isspace` and the regex class `\s` for `str` patterns:
CPython's `Py_UNICODE_ISSPACE`, true on exactly these code points. -/
def pyIsSpace (c : Char) : Bool :=
  (9 ≤ c.toNat && c.toNat ≤ 13) || (28 ≤ c.toNat && c.toNat ≤ 32) ||
  c.toNat == 0x85 || c.toNat == 0xa0 || c.toNat == 0x1680 ||
  (0x2000 ≤ c.toNat && c.toNat ≤ 0x200a) ||
  c.toNat == 0x2028 || c.toNat == 0x2029 || c.toNat == 0x202f ||
  c.toNat == 0x205f || c.toNat == 0x3000

/-- Python `str.isalnum`: true on every Unicode letter, digit and numeric
character.  Embedded as the ASCII alphanumerics plus the non-ASCII
alphanumerics evaluated in this development (é, É). -/
def pyIsAlnum (c : Char) : Bool :=
  (48 ≤ c.toNat && c.toNat ≤ 57) || (65 ≤ c.toNat && c.toNat ≤ 90) ||
  (97 ≤ c.toNat && c.toNat ≤ 122) || c.toNat == 0xe9 || c.toNat == 0xc9

/-- The case-mapping pairs of Python `str.lower`, tabulated:
ASCII `A`–`Z` plus the non-ASCII cased letters this development evaluates. -/
def lowerTable : List (Char × Char) :=
  [('A', 'a'), ('B', 'b'), ('C', 'c'), ('D', 'd'), ('E', 'e'), ('F', 'f'),
   ('G', 'g'), ('H', 'h'), ('I', 'i'), ('J', 'j'), ('K', 'k'), ('L', 'l'),
   ('M', 'm'), ('N', 'n'), ('O', 'o'), ('P', 'p'), ('Q', 'q'), ('R', 'r'),
   ('S', 's'), ('T', 't'), ('U', 'u'), ('V', 'v'), ('W', 'w'), ('X', 'x'),
   ('Y', 'y'), ('Z', 'z'), ('É', 'é')]

/-- Python `str.lower`, character-wise. -/
def pyLower (c : Char) : Char :=
  match lowerTable.find? (fun p => p.1 == c) with
  | some p => p.2
  | none => c

/-- The case-mapping pairs of Python's upper/title mapping, tabulated
(inverse of `lowerTable`). -/
def upperTable : List (Char × Char) :=
  [('a', 'A'), ('b', 'B'), ('c', 'C'), ('d', 'D'), ('e', 'E'), ('f', 'F'),
   ('g', 'G'), ('h', 'H'), ('i', 'I'), ('j', 'J'), ('k', 'K'), ('l', 'L'),
   ('m', 'M'), ('n', 'N'), ('o', 'O'), ('p', 'P'), ('q', 'Q'), ('r', 'R'),
   ('s', 'S'), ('t', 'T'), ('u', 'U'), ('v', 'V'), ('w', 'W'), ('x', 'X'),
   ('y', 'Y'), ('z', 'Z'), ('é', 'É')]

/-- Python's title-case mapping of a single character (used by `str.title`). -/
def pyUpper (c : Char) : Char :=
  match upperTable.find? (fun p => p.1 == c) with
  | some p => p.2
  | none => c

/-- CPython's `Py_UNICODE_ISCASED` (the characters that carry case),
restricted like `pyIsAlnum` to ASCII plus é/É. -/
def pyIsCased (c : Char) : Bool :=
  (65 ≤ c.toNat && c.toNat ≤ 90) || (97 ≤ c.toNat && c.toNat ≤ 122) ||
  c.toNat == 0xe9 || c.toNat == 0xc9

/-- Drop matching characters from the end of a list (the right half of
Python's `str.strip`). -/
def dropTrail (p : Char → Bool) (l : List Char) : List Char :=
  (l.reverse.dropWhile p).reverse

/-- `_normalize_whitespace`: Python
`re.sub(r"\s", " ", name).strip()` — every whitespace code point becomes
an ASCII space, then whitespace is stripped from both ends. -/
def normalize_whitespace (name : List Char) : List Char :=
  dropTrail pyIsSpace
    ((name.map (fun c => if pyIsSpace c then ' ' else c)).dropWhile pyIsSpace)

/-- One pass of Python `result.replace(delim + delim, delim)`:
leftmost non-overlapping replacement of the two-character pattern. -/
def replaceDD (d : Char) : List Char → List Char
  | c1 :: c2 :: rest =>
      if c1 = d ∧ c2 = d then d :: replaceDD d rest
      else c1 :: replaceDD d (c2 :: rest)
  | l => l

/-- Python `(delim + delim) in result`: substring test, specialised to the
two-character pattern `[d, d]`. -/
def hasDD (d : Char) : List Char → Bool
  | c1 :: c2 :: rest =>
      if c1 = d ∧ c2 = d then true else hasDD d (c2 :: rest)
  | _ => false

/-- The `while double in result:` loop body iterated with explicit fuel;
each iteration with a double present strictly shortens the list, so
`s.length` iterations always reach the loop's exit condition. -/
def collapseGo (d : Char) : Nat → List Char → List Char
  | 0, s => s
  | fuel + 1, s => if hasDD d s then collapseGo d fuel (replaceDD d s) else s

/-- Python `while double in result: result = result.replace(double, delim)`. -/
def collapse (d : Char) (s : List Char) : List Char :=
  collapseGo d s.length s

/-- Python `result.strip(delim)`. -/
def stripChar (d : Char) (l : List Char) : List Char :=
  dropTrail (fun c => c == d) (l.dropWhile (fun c => c == d))

/-- The `allowed` set of `_apply_delimiter_style`:
`{delim} | ({"_"} if delim == "-" and "_" not in convert_chars else set())`. -/
def allowedSet (delim : Char) (convert_chars : List Char) : List Char :=
  if delim = '-' ∧ '_' ∉ convert_chars then [delim, '_'] else [delim]

/-- `_apply_delimiter_style`, its five reassignments of `result` composed
inside-out: lower-case, convert the style's characters to the delimiter
(one `str.replace` per character, in order), keep only alphanumerics and
allowed characters, collapse doubled delimiters, strip the delimiter from
both ends. -/
def apply_delimiter_style (name : List Char) (delim : Char)
    (convert_chars : List Char) : List Char :=
  stripChar delim (collapse delim
    ((convert_chars.foldl
        (fun r ch => r.map (fun c => if c = ch then delim else c))
        (name.map pyLower)).filter
      (fun c => pyIsAlnum c || decide (c ∈ allowedSet delim convert_chars))))

/-- The separator class of the camel split: `[ .\-_]`. -/
def isSep (c : Char) : Bool :=
  c == ' ' || c == '.' || c == '-' || c == '_'

/-- Prepend a character to the first token of a token list. -/
def consHead (c : Char) : List (List Char) → List (List Char)
  | t :: ts => (c :: t) :: ts
  | [] => [[c]]

/-- Python `re.split(r"[ .\-_]+", name)`: the pieces between maximal
separator runs, with an empty piece at a leading or trailing run
(structured right-to-left: a separator emits a token boundary only when
it is the last separator of its run). -/
def splitSeps : List Char → List (List Char)
  | [] => [[]]
  | c :: rest =>
      if isSep c then
        (match rest with
         | r :: _ => if isSep r then splitSeps rest else [] :: splitSeps rest
         | [] => [] :: splitSeps rest)
      else consHead c (splitSeps rest)

/-- CPython's `do_title` loop: title-case a character after an uncased
character, lower-case a character after a cased one; the flag is whether
the previous original character was cased. -/
def pyTitleAux (prevCased : Bool) : List Char → List Char
  | [] => []
  | c :: rest =>
      (if prevCased then pyLower c else pyUpper c) :: pyTitleAux (pyIsCased c) rest

/-- Python `str.title`. -/
def pyTitle (l : List Char) : List Char := pyTitleAux false l

/-- `_apply_camel`: split on separator runs, keep only alphanumerics in
each part, drop empty parts (`clean_parts`), join the lower-cased head
with the title-cased rest. -/
def apply_camel (name : List Char) : List Char :=
  match ((splitSeps name).map
      (fun part => part.filter pyIsAlnum)).filter (fun p => !p.isEmpty) with
  | [] => []
  | p :: ps => p.map pyLower ++ (ps.map pyTitle).flatten

/-- The `Style` enumeration of naming styles. -/
inductive Style where
  | web
  | snake
  | kebab
  | camel
deriving DecidableEq

/-- `_STYLE_CONFIG`: (delimiter, characters converted to the delimiter)
for the three delimiter styles; camel has no entry. -/
def STYLE_CONFIG : Style → Option (Char × List Char)
  | .web => some ('-', [' ', '.'])
  | .snake => some ('_', [' ', '.', '-'])
  | .kebab => some ('-', [' ', '.', '_'])
  | .camel => none

/-- `safe_stem`: normalize whitespace; empty result is returned at once;
camel takes its own path; otherwise the configured delimiter style runs.
(The `none` branch is unreachable: every non-camel style has a config.) -/
def safe_stem (name : List Char) (style : Style) : List Char :=
  let normalized := normalize_whitespace name
  if normalized = [] then []
  else if style = Style.camel then apply_camel normalized
  else
    match STYLE_CONFIG style with
    | some (delim, convert_chars) => apply_delimiter_style normalized delim convert_chars
    | none => []

/-- A `pathlib` pure path, reduced to the parts `rename.py` reads: the
parent directory (kept as opaque text) and the final component. -/
structure PurePath where
  dir : List Char
  name : List Char
deriving DecidableEq

/-- Python `str.rfind('.')` as an option: the index of the last dot. -/
def rfindDot : List Char → Option Nat
  | [] => none
  | c :: rest =>
      match rfindDot rest with
      | some i => some (i + 1)
      | none => if c = '.' then some 0 else none

/-- `pathlib` `PurePath.stem`: the final component up to its last dot,
when that dot is neither leading nor trailing. -/
def pathStem (p : PurePath) : List Char :=
  match rfindDot p.name with
  | some i => if 0 < i ∧ i < p.name.length - 1 then p.name.take i else p.name
  | none => p.name

/-- `pathlib` `PurePath.suffix`: from the last dot on, when that dot is
neither leading nor trailing; empty otherwise. -/
def pathSuffix (p : PurePath) : List Char :=
  match rfindDot p.name with
  | some i => if 0 < i ∧ i < p.name.length - 1 then p.name.drop i else []
  | none => []

/-- `pathlib` `PurePath.with_name`. -/
def withName (p : PurePath) (n : List Char) : PurePath :=
  { p with name := n }

/-- `pathlib` `PurePath.joinpath` with a single final component. -/
def joinpath (t : PurePath) (n : List Char) : PurePath :=
  { dir := t.dir ++ '/' :: t.name, name := n }

/-- The exceptions `rename.py` raises, with the data its messages carry. -/
inductive RenameError where
  | emptyResult (origName : List Char)
  | notFound (p : PurePath)
  | invalidTarget (p : PurePath)
  | alreadyExists (p : PurePath)
  | symlinkRefused (p : PurePath)
deriving DecidableEq

/-- `make_safe_path`: sanitize the stem, fail on an empty result, append
the lower-cased suffix, place the name in the target directory when one
is supplied or next to the original otherwise. -/
def make_safe_path (orig_path : PurePath) (target_dir : Option PurePath)
    (style : Style) : Except RenameError PurePath :=
  if safe_stem (pathStem orig_path) style = [] then
    .error (.emptyResult orig_path.name)
  else
    match target_dir with
    | some t => .ok (joinpath t
        (safe_stem (pathStem orig_path) style ++ (pathSuffix orig_path).map pyLower))
    | none => .ok (withName orig_path
        (safe_stem (pathStem orig_path) style ++ (pathSuffix orig_path).map pyLower))

/-- The filesystem state `rename_file` consults: which paths are symbolic
links, regular files and directories.  `Path.is_symlink`, `is_file`,
`is_dir`, `exists` and `rename` are interpreted against it. -/
structure FS where
  symlinks : List PurePath
  files : List PurePath
  dirs : List PurePath
deriving DecidableEq

/-- `Path.exists` over the modelled state. -/
def fsExists (fs : FS) (p : PurePath) : Bool :=
  decide (p ∈ fs.files) || decide (p ∈ fs.dirs) || decide (p ∈ fs.symlinks)

/-- `Path.rename`: the single mutation — the original file is gone, the
new path holds a file. -/
def fsRename (fs : FS) (orig new : PurePath) : FS :=
  { fs with files := new :: fs.files.erase orig }

/-- The tail of `rename_file` after its three precondition checks:
compute the candidate path, check for a collision unless dry-running,
perform the rename unless dry-running. -/
def rename_checked (fs : FS) (orig_path : PurePath) (target_dir : Option PurePath)
    (dry_run : Bool) (style : Style) : Except RenameError PurePath × FS :=
  match make_safe_path orig_path target_dir style with
  | .error e => (.error e, fs)
  | .ok new_path =>
      if !dry_run && fsExists fs new_path then
        (.error (.alreadyExists new_path), fs)
      else if !dry_run then (.ok new_path, fsRename fs orig_path new_path)
      else (.ok new_path, fs)

/-- `rename_file`, returning the Python result (or exception) together
with the filesystem state after the call. -/
def rename_file (fs : FS) (orig_path : PurePath) (target_dir : Option PurePath)
    (dry_run : Bool) (style : Style) : Except RenameError PurePath × FS :=
  if orig_path ∈ fs.symlinks then (.error (.symlinkRefused orig_path), fs)
  else if orig_path ∉ fs.files then (.error (.notFound orig_path), fs)
  else
    match target_dir with
    | some t =>
        if t ∉ fs.dirs then (.error (.invalidTarget t), fs)
        else rename_checked fs orig_path target_dir dry_run style
    | none => rename_checked fs orig_path target_dir dry_run style

/-- The delimiter characters a style's `safe_stem` output may contain
(the spec's "delimiter set": hyphen for web and kebab, with underscore
additionally allowed for web; underscore for snake; none for camel). -/
def styleDelims : Style → List Char
  | .web => ['-', '_']
  | .snake => ['_']
  | .kebab => ['-']
  | .camel => []

/-- The spec's camel split, stated as it is worded: the maximal runs of
non-separator characters, in order (no empty segments arise). -/
def rawTokens : List Char → List (List Char)
  | [] => []
  | c :: rest =>
      if isSep c then rawTokens rest
      else
        match rest with
        | r :: _ => if isSep r then [c] :: rawTokens rest else consHead c (rawTokens rest)
        | [] => [c] :: rawTokens rest

/-- The spec's title-casing (amended), stated positionally: a character is
upper-cased when the preceding character is absent or uncased, and
lower-cased otherwise. -/
def pyTitleSpecAux : Option Char → List Char → List Char
  | _, [] => []
  | prev, c :: rest =>
      (match prev with
       | none => pyUpper c
       | some p => if pyIsCased p then pyLower c else pyUpper c) :: pyTitleSpecAux (some c) rest

/-- Modelled from the spec's camel description (amended): split the
whitespace-normalized string on maximal separator runs, retain only
alphanumerics in each segment, drop empty segments; lower-case the first
segment entirely and title-case each later segment (Python `str.title`
semantics: a new capitalised run starts after every uncased character),
joining with no separator. -/
def camelSpec (name : List Char) : List Char :=
  match ((rawTokens (normalize_whitespace name)).map
      (fun t => t.filter pyIsAlnum)).filter (fun t => !t.isEmpty) with
  | [] => []
  | p :: ps => p.map pyLower ++ (ps.map (pyTitleSpecAux none)).flatten

theorem pyLower_find_none {c : Char}
    (h : lowerTable.find? (fun p => p.1 == c) = none) : pyLower c = c := by
  unfold pyLower; rw [h]

theorem pyLower_find_some {c : Char} {q : Char × Char}
    (h : lowerTable.find? (fun p => p.1 == c) = some q) : pyLower c = q.2 := by
  unfold pyLower; rw [h]

theorem pyUpper_find_none {c : Char}
    (h : upperTable.find? (fun p => p.1 == c) = none) : pyUpper c = c := by
  unfold pyUpper; rw [h]

theorem pyUpper_find_some {c : Char} {q : Char × Char}
    (h : upperTable.find? (fun p => p.1 == c) = some q) : pyUpper c = q.2 := by
  unfold pyUpper; rw [h]

theorem pyLower_idem (c : Char) : pyLower (pyLower c) = pyLower c := by
  cases h : lowerTable.find? (fun p => p.1 == c) with
  | none => rw [pyLower_find_none h, pyLower_find_none h]
  | some q =>
      have hq : q ∈ lowerTable := List.mem_of_find?_eq_some h
      have key : ∀ r ∈ lowerTable,
          lowerTable.find? (fun p => p.1 == r.2) = none := by decide
      rw [pyLower_find_some h, pyLower_find_none (key q hq)]

theorem pyIsAlnum_pyLower (c : Char) : pyIsAlnum (pyLower c) = pyIsAlnum c := by
  cases h : lowerTable.find? (fun p => p.1 == c) with
  | none => rw [pyLower_find_none h]
  | some q =>
      have hq : q ∈ lowerTable := List.mem_of_find?_eq_some h
      have hc : q.1 = c := by simpa using List.find?_some h
      have key : ∀ r ∈ lowerTable, pyIsAlnum r.2 = pyIsAlnum r.1 := by decide
      rw [pyLower_find_some h, ← hc, key q hq]

theorem pyIsAlnum_pyUpper (c : Char) : pyIsAlnum (pyUpper c) = pyIsAlnum c := by
  cases h : upperTable.find? (fun p => p.1 == c) with
  | none => rw [pyUpper_find_none h]
  | some q =>
      have hq : q ∈ upperTable := List.mem_of_find?_eq_some h
      have hc : q.1 = c := by simpa using List.find?_some h
      have key : ∀ r ∈ upperTable, pyIsAlnum r.2 = pyIsAlnum r.1 := by decide
      rw [pyUpper_find_some h, ← hc, key q hq]

theorem not_space_of_alnum {c : Char} (h : pyIsAlnum c = true) :
    pyIsSpace c = false := by
  simp only [pyIsAlnum, Bool.or_eq_true, Bool.and_eq_true, decide_eq_true_eq,
    beq_iff_eq] at h
  simp only [pyIsSpace, Bool.or_eq_false_iff, Bool.and_eq_false_iff,
    decide_eq_false_iff_not, beq_eq_false_iff_ne, ne_eq]
  omega

theorem not_sep_of_alnum {c : Char} (h : pyIsAlnum c = true) :
    isSep c = false := by
  have hn : c.toNat ≠ 32 ∧ c.toNat ≠ 46 ∧ c.toNat ≠ 45 ∧ c.toNat ≠ 95 := by
    simp only [pyIsAlnum, Bool.or_eq_true, Bool.and_eq_true, decide_eq_true_eq,
      beq_iff_eq] at h
    omega
  simp only [isSep, Bool.or_eq_false_iff, beq_eq_false_iff_ne, ne_eq]
  refine ⟨⟨⟨fun hc => ?_, fun hc => ?_⟩, fun hc => ?_⟩, fun hc => ?_⟩ <;>
    [exact hn.1 (by rw [hc]; rfl); exact hn.2.1 (by rw [hc]; rfl);
     exact hn.2.2.1 (by rw [hc]; rfl); exact hn.2.2.2 (by rw [hc]; rfl)]

theorem map_fix {f : Char → Char} :
    ∀ {l : List Char}, (∀ c ∈ l, f c = c) → l.map f = l
  | [], _ => rfl
  | c :: t, h => by
      simp only [List.map_cons, h c (List.mem_cons_self c t),
        map_fix (fun x hx => h x (List.mem_cons_of_mem c hx))]

theorem head?_mem : ∀ {l : List Char} {c : Char}, l.head? = some c → c ∈ l
  | a :: _, _, h => by
      simp only [List.head?_cons, Option.some.injEq] at h
      exact h ▸ List.mem_cons_self _ _

theorem dropWhile_noop {p : Char → Bool} :
    ∀ {l : List Char}, (∀ c, l.head? = some c → p c = false) → l.dropWhile p = l
  | [], _ => rfl
  | c :: t, h => by
      have hc : p c = false := h c rfl
      simp [List.dropWhile_cons, hc]

theorem dropWhile_head {p : Char → Bool} :
    ∀ {l : List Char} {c : Char}, (l.dropWhile p).head? = some c → p c = false
  | [], c, h => by simp at h
  | a :: t, c, h => by
      by_cases ha : p a = true
      · rw [List.dropWhile_cons, if_pos ha] at h
        exact dropWhile_head h
      · rw [List.dropWhile_cons, if_neg ha] at h
        simp only [List.head?_cons, Option.some.injEq] at h
        rw [← h]
        exact Bool.eq_false_iff.mpr ha

theorem dropWhile_suffix_decomp {p : Char → Bool} :
    ∀ (l : List Char), ∃ u, l = u ++ l.dropWhile p
  | [] => ⟨[], rfl⟩
  | c :: t => by
      by_cases hc : p c = true
      · obtain ⟨u, hu⟩ := dropWhile_suffix_decomp (p := p) t
        exact ⟨c :: u, by simp [List.dropWhile_cons, hc, ← hu]⟩
      · exact ⟨[], by simp [List.dropWhile_cons, hc]⟩

theorem dropWhile_subset {p : Char → Bool} {l : List Char} {c : Char}
    (h : c ∈ l.dropWhile p) : c ∈ l := by
  obtain ⟨u, hu⟩ := dropWhile_suffix_decomp (p := p) l
  rw [hu]
  exact List.mem_append_right u h

theorem dropTrail_getLast {p : Char → Bool} {l : List Char} {c : Char}
    (h : (dropTrail p l).getLast? = some c) : p c = false := by
  unfold dropTrail at h
  rw [List.getLast?_reverse] at h
  exact dropWhile_head h

theorem dropTrail_noop {p : Char → Bool} {l : List Char}
    (h : ∀ c, l.getLast? = some c → p c = false) : dropTrail p l = l := by
  unfold dropTrail
  rw [dropWhile_noop, List.reverse_reverse]
  intro c hc
  rw [List.head?_reverse] at hc
  exact h c hc

theorem dropTrail_decomp {p : Char → Bool} (l : List Char) :
    ∃ u, l = dropTrail p l ++ u := by
  obtain ⟨u, hu⟩ := dropWhile_suffix_decomp (p := p) l.reverse
  refine ⟨u.reverse, ?_⟩
  unfold dropTrail
  calc l = l.reverse.reverse := (List.reverse_reverse l).symm
  _ = (u ++ l.reverse.dropWhile p).reverse := by rw [← hu]
  _ = (l.reverse.dropWhile p).reverse ++ u.reverse := List.reverse_append u _

theorem dropTrail_subset {p : Char → Bool} {l : List Char} {c : Char}
    (h : c ∈ dropTrail p l) : c ∈ l := by
  obtain ⟨u, hu⟩ := dropTrail_decomp (p := p) l
  rw [hu]
  exact List.mem_append_left u h

theorem head?_append_left {l m : List Char} (h : l ≠ []) :
    (l ++ m).head? = l.head? := by
  cases l with
  | nil => exact absurd rfl h
  | cons c t => simp

theorem dropTrail_head {p : Char → Bool} {l : List Char}
    (h : dropTrail p l ≠ []) : (dropTrail p l).head? = l.head? := by
  obtain ⟨u, hu⟩ := dropTrail_decomp (p := p) l
  conv_rhs => rw [hu]
  exact (head?_append_left h).symm

theorem hasDD_cons {d c : Char} :
    ∀ {l : List Char}, hasDD d l = true → hasDD d (c :: l) = true
  | x :: t, h => by
      unfold hasDD
      split
      · rfl
      · exact h

theorem hasDD_append_dd (d : Char) (v : List Char) :
    ∀ (u : List Char), hasDD d (u ++ d :: d :: v) = true
  | [] => by unfold hasDD; simp
  | c :: u => hasDD_cons (hasDD_append_dd d v u)

theorem hasDD_split {d : Char} :
    ∀ {l : List Char}, hasDD d l = true → ∃ u v, l = u ++ d :: d :: v
  | c1 :: c2 :: rest, h => by
      unfold hasDD at h
      split at h
      · rename_i hdd
        exact ⟨[], rest, by rw [hdd.1, hdd.2]; rfl⟩
      · obtain ⟨u, v, huv⟩ := hasDD_split h
        exact ⟨c1 :: u, v, by rw [List.cons_append, ← huv]⟩

theorem hasDD_false_of_decomp {d : Char} {l m u v : List Char}
    (hl : l = u ++ m ++ v) (h : hasDD d l = false) : hasDD d m = false := by
  by_contra hm
  have hm' : hasDD d m = true := Bool.not_eq_false _ |>.mp hm
  obtain ⟨a, b, hab⟩ := hasDD_split hm'
  have : hasDD d l = true := by
    rw [hl, hab]
    have : u ++ (a ++ d :: d :: b) ++ v = (u ++ a) ++ d :: d :: (b ++ v) := by
      simp [List.append_assoc]
    rw [this]
    exact hasDD_append_dd d (b ++ v) (u ++ a)
  rw [this] at h
  simp at h

theorem replaceDD_length_le (d : Char) :
    ∀ (s : List Char), (replaceDD d s).length ≤ s.length
  | [] => le_refl _
  | [c] => le_refl _
  | c1 :: c2 :: rest => by
      unfold replaceDD
      split
      · have := replaceDD_length_le d rest
        simp only [List.length_cons]
        omega
      · have := replaceDD_length_le d (c2 :: rest)
        simp only [List.length_cons] at *
        omega

theorem replaceDD_length_lt (d : Char) :
    ∀ {s : List Char}, hasDD d s = true → (replaceDD d s).length < s.length
  | c1 :: c2 :: rest, h => by
      unfold replaceDD
      unfold hasDD at h
      split
      · have := replaceDD_length_le d rest
        simp only [List.length_cons]
        omega
      · rename_i hne
        rw [if_neg hne] at h
        have := replaceDD_length_lt d (s := c2 :: rest) h
        simp only [List.length_cons] at *
        omega

theorem replaceDD_subset {d c : Char} :
    ∀ {s : List Char}, c ∈ replaceDD d s → c ∈ s
  | [], h => h
  | [x], h => h
  | c1 :: c2 :: rest, h => by
      unfold replaceDD at h
      split at h
      · rename_i hdd
        rcases List.mem_cons.mp h with hc | hc
        · rw [hc, ← hdd.1]; exact List.mem_cons_self _ _
        · exact List.mem_cons_of_mem _ (List.mem_cons_of_mem _ (replaceDD_subset hc))
      · rcases List.mem_cons.mp h with hc | hc
        · rw [hc]; exact List.mem_cons_self _ _
        · exact List.mem_cons_of_mem _ (replaceDD_subset hc)

theorem collapseGo_no_dd (d : Char) :
    ∀ (fuel : Nat) (s : List Char), s.length ≤ fuel →
      hasDD d (collapseGo d fuel s) = false
  | 0, s, h => by
      have : s = [] := List.length_eq_zero.mp (Nat.le_zero.mp h)
      rw [this]
      rfl
  | fuel + 1, s, h => by
      unfold collapseGo
      by_cases hdd : hasDD d s = true
      · rw [if_pos hdd]
        have hlt := replaceDD_length_lt d hdd
        exact collapseGo_no_dd d fuel (replaceDD d s) (by omega)
      · rw [if_neg hdd]
        exact Bool.not_eq_true _ |>.mp hdd

theorem collapseGo_eq_self {d : Char} {s : List Char} (fuel : Nat)
    (h : hasDD d s = false) : collapseGo d fuel s = s := by
  cases fuel with
  | zero => rfl
  | succ n =>
      unfold collapseGo
      rw [if_neg (by rw [h]; exact Bool.false_ne_true)]

theorem collapseGo_subset {d c : Char} :
    ∀ (fuel : Nat) {s : List Char}, c ∈ collapseGo d fuel s → c ∈ s
  | 0, _, h => h
  | fuel + 1, s, h => by
      unfold collapseGo at h
      split at h
      · exact replaceDD_subset (collapseGo_subset fuel h)
      · exact h

theorem collapse_no_dd (d : Char) (s : List Char) :
    hasDD d (collapse d s) = false :=
  collapseGo_no_dd d s.length s (le_refl _)

theorem collapse_eq_self {d : Char} {s : List Char} (h : hasDD d s = false) :
    collapse d s = s :=
  collapseGo_eq_self s.length h

theorem collapse_subset {d c : Char} {s : List Char}
    (h : c ∈ collapse d s) : c ∈ s :=
  collapseGo_subset s.length h

theorem stripChar_subset {d c : Char} {l : List Char}
    (h : c ∈ stripChar d l) : c ∈ l :=
  dropWhile_subset (dropTrail_subset h)

theorem stripChar_no_dd {d : Char} {l : List Char} (h : hasDD d l = false) :
    hasDD d (stripChar d l) = false := by
  obtain ⟨u, hu⟩ := dropWhile_suffix_decomp (p := fun c => c == d) l
  obtain ⟨v, hv⟩ := dropTrail_decomp (p := fun c => c == d)
    (l.dropWhile (fun c => c == d))
  have hl2 : l = u ++ stripChar d l ++ v := by
    conv_lhs => rw [hu, hv]
    unfold stripChar
    rw [List.append_assoc]
  exact hasDD_false_of_decomp hl2 h

theorem stripChar_head {d c : Char} {l : List Char}
    (h : (stripChar d l).head? = some c) : c ≠ d := by
  intro hc
  unfold stripChar at h
  by_cases hne : dropTrail (fun c => c == d) (l.dropWhile (fun c => c == d)) = []
  · rw [hne] at h; simp at h
  · rw [dropTrail_head hne] at h
    have := dropWhile_head h
    rw [hc] at this
    simp at this

theorem stripChar_getLast {d c : Char} {l : List Char}
    (h : (stripChar d l).getLast? = some c) : c ≠ d := by
  intro hc
  have := dropTrail_getLast h
  rw [hc] at this
  simp at this

theorem stripChar_noop {d : Char} {l : List Char}
    (hh : ∀ c, l.head? = some c → c ≠ d)
    (hl : ∀ c, l.getLast? = some c → c ≠ d) : stripChar d l = l := by
  unfold stripChar
  rw [dropWhile_noop (fun c hc => by simpa using hh c hc)]
  exact dropTrail_noop (fun c hc => by simpa using hl c hc)

theorem getLast?_mem {l : List Char} {c : Char} (h : l.getLast? = some c) :
    c ∈ l := by
  rw [← List.head?_reverse] at h
  exact List.mem_reverse.mp (head?_mem h)

theorem foldl_replace_fix {d : Char} (hd : pyLower d = d) :
    ∀ (conv r : List Char), (∀ c ∈ r, pyLower c = c) →
      ∀ c ∈ conv.foldl (fun r ch => r.map (fun c => if c = ch then d else c)) r,
        pyLower c = c
  | [], _, hr => hr
  | ch :: conv, r, hr => by
      simp only [List.foldl_cons]
      refine foldl_replace_fix hd conv _ ?_
      intro c hcmem
      obtain ⟨x, hx, hfx⟩ := List.mem_map.mp hcmem
      by_cases hxch : x = ch
      · rw [← hfx, if_pos hxch]; exact hd
      · rw [← hfx, if_neg hxch]; exact hr x hx

theorem foldl_replace_noop {d : Char} :
    ∀ (conv r : List Char), (∀ ch ∈ conv, ch ∉ r) →
      conv.foldl (fun r ch => r.map (fun c => if c = ch then d else c)) r = r
  | [], _, _ => rfl
  | ch :: conv, r, h => by
      simp only [List.foldl_cons]
      have hstep : r.map (fun c => if c = ch then d else c) = r := by
        refine map_fix (fun c hc => ?_)
        have hne : c ≠ ch := fun hcch =>
          h ch (List.mem_cons_self _ _) (by rw [← hcch]; exact hc)
        rw [if_neg hne]
      rw [hstep]
      exact foldl_replace_noop conv r (fun x hx => h x (List.mem_cons_of_mem _ hx))

theorem ads_chars {d : Char} {conv name : List Char} (hd : pyLower d = d) :
    ∀ c ∈ apply_delimiter_style name d conv,
      pyLower c = c ∧ (pyIsAlnum c = true ∨ c ∈ allowedSet d conv) := by
  intro c hc
  unfold apply_delimiter_style at hc
  have h1 := collapse_subset (stripChar_subset hc)
  obtain ⟨h2, h3⟩ := List.mem_filter.mp h1
  constructor
  · refine foldl_replace_fix hd conv (name.map pyLower) ?_ c h2
    intro x hx
    obtain ⟨x0, _, hx0⟩ := List.mem_map.mp hx
    rw [← hx0]
    exact pyLower_idem x0
  · rcases Bool.or_eq_true _ _ |>.mp h3 with ha | hm
    · exact Or.inl ha
    · exact Or.inr (of_decide_eq_true hm)

theorem ads_no_dd (d : Char) (name conv : List Char) :
    hasDD d (apply_delimiter_style name d conv) = false := by
  unfold apply_delimiter_style
  exact stripChar_no_dd (collapse_no_dd d _)

theorem ads_head {d c : Char} {name conv : List Char}
    (h : (apply_delimiter_style name d conv).head? = some c) : c ≠ d := by
  unfold apply_delimiter_style at h
  exact stripChar_head h

theorem ads_getLast {d c : Char} {name conv : List Char}
    (h : (apply_delimiter_style name d conv).getLast? = some c) : c ≠ d := by
  unfold apply_delimiter_style at h
  exact stripChar_getLast h

theorem ads_noop {d : Char} {conv y : List Char}
    (hchars : ∀ c ∈ y, pyLower c = c ∧ (pyIsAlnum c = true ∨ c ∈ allowedSet d conv))
    (hdd : hasDD d y = false)
    (hh : ∀ c, y.head? = some c → c ≠ d)
    (hl : ∀ c, y.getLast? = some c → c ≠ d)
    (hconv : ∀ ch ∈ conv, pyIsAlnum ch = false ∧ ch ∉ allowedSet d conv) :
    apply_delimiter_style y d conv = y := by
  unfold apply_delimiter_style
  have hmap : y.map pyLower = y := map_fix (fun c hc => (hchars c hc).1)
  have hfold : conv.foldl (fun r ch => r.map (fun c => if c = ch then d else c))
      (y.map pyLower) = y := by
    rw [hmap]
    refine foldl_replace_noop conv y ?_
    intro ch hch hchy
    rcases (hchars ch hchy).2 with ha | hm
    · rw [(hconv ch hch).1] at ha; exact Bool.false_ne_true ha
    · exact (hconv ch hch).2 hm
  have hfilter : y.filter
      (fun c => pyIsAlnum c || decide (c ∈ allowedSet d conv)) = y := by
    refine List.filter_eq_self.mpr ?_
    intro c hc
    rcases (hchars c hc).2 with ha | hm
    · exact Bool.or_eq_true _ _ |>.mpr (Or.inl ha)
    · exact Bool.or_eq_true _ _ |>.mpr (Or.inr (decide_eq_true hm))
  rw [hfold, hfilter, collapse_eq_self hdd]
  exact stripChar_noop hh hl

theorem nw_nil : normalize_whitespace [] = [] := rfl

theorem nw_noop {y : List Char} (h : ∀ c ∈ y, pyIsSpace c = false) :
    normalize_whitespace y = y := by
  unfold normalize_whitespace
  have hmap : y.map (fun c => if pyIsSpace c then ' ' else c) = y :=
    map_fix (fun c hc => by rw [h c hc]; rfl)
  have h1 : y.dropWhile pyIsSpace = y :=
    dropWhile_noop (fun c hc => h c (head?_mem hc))
  have h2 : dropTrail pyIsSpace y = y :=
    dropTrail_noop (fun c hc => h c (getLast?_mem hc))
  rw [hmap, h1, h2]

theorem safe_stem_delim (name : List Char) (style : Style) (d : Char)
    (conv : List Char) (hcfg : STYLE_CONFIG style = some (d, conv))
    (hst : style ≠ Style.camel) :
    safe_stem name style =
      if normalize_whitespace name = [] then []
      else apply_delimiter_style (normalize_whitespace name) d conv := by
  simp only [safe_stem, hcfg]
  by_cases hn : normalize_whitespace name = [] <;> simp [hn, hst]

theorem safe_stem_camel_eq (name : List Char) :
    safe_stem name Style.camel =
      if normalize_whitespace name = [] then []
      else apply_camel (normalize_whitespace name) := by
  simp only [safe_stem]
  by_cases hn : normalize_whitespace name = [] <;> simp [hn]

theorem ss_delim_eq_or (name : List Char) (style : Style) (d : Char)
    (conv : List Char) (hcfg : STYLE_CONFIG style = some (d, conv))
    (hst : style ≠ Style.camel) :
    safe_stem name style = [] ∨
      safe_stem name style =
        apply_delimiter_style (normalize_whitespace name) d conv := by
  rw [safe_stem_delim name style d conv hcfg hst]
  by_cases hn : normalize_whitespace name = [] <;> simp [hn]

theorem ss_delim_chars (name : List Char) (style : Style) (d : Char)
    (conv : List Char) (hcfg : STYLE_CONFIG style = some (d, conv))
    (hst : style ≠ Style.camel) (hd : pyLower d = d) :
    ∀ c ∈ safe_stem name style,
      pyLower c = c ∧ (pyIsAlnum c = true ∨ c ∈ allowedSet d conv) := by
  intro c hc
  rcases ss_delim_eq_or name style d conv hcfg hst with h | h
  · rw [h] at hc; exact absurd hc (List.not_mem_nil c)
  · rw [h] at hc; exact ads_chars hd c hc

theorem ss_delim_shape (name : List Char) (style : Style) (d : Char)
    (conv : List Char) (hcfg : STYLE_CONFIG style = some (d, conv))
    (hst : style ≠ Style.camel) :
    hasDD d (safe_stem name style) = false ∧
    (safe_stem name style).head? ≠ some d ∧
    (safe_stem name style).getLast? ≠ some d := by
  rcases ss_delim_eq_or name style d conv hcfg hst with h | h <;> rw [h]
  · exact ⟨rfl, by simp, by simp⟩
  · exact ⟨ads_no_dd d _ conv,
      fun heq => ads_head heq rfl, fun heq => ads_getLast heq rfl⟩

theorem ss_delim_idem (name : List Char) (style : Style) (d : Char)
    (conv : List Char) (hcfg : STYLE_CONFIG style = some (d, conv))
    (hst : style ≠ Style.camel) (hd : pyLower d = d)
    (hconv : ∀ ch ∈ conv, pyIsAlnum ch = false ∧ ch ∉ allowedSet d conv)
    (hallow : ∀ a ∈ allowedSet d conv, pyIsSpace a = false) :
    safe_stem (safe_stem name style) style = safe_stem name style := by
  by_cases hynil : safe_stem name style = []
  · rw [hynil, safe_stem_delim [] style d conv hcfg hst, if_pos nw_nil]
  · have hchars := ss_delim_chars name style d conv hcfg hst hd
    have hnspace : ∀ c ∈ safe_stem name style, pyIsSpace c = false := by
      intro c hc
      rcases (hchars c hc).2 with ha | hm
      · exact not_space_of_alnum ha
      · exact hallow c hm
    obtain ⟨hdd, hh, hl⟩ := ss_delim_shape name style d conv hcfg hst
    rw [safe_stem_delim (safe_stem name style) style d conv hcfg hst,
      nw_noop hnspace, if_neg hynil]
    refine ads_noop hchars hdd ?_ ?_ hconv
    · intro c hc hcd; rw [hc] at hh; exact hh (by rw [hcd])
    · intro c hc hcd; rw [hc] at hl; exact hl (by rw [hcd])

theorem nw_replace {s1 s2 : List Char} {c : Char} (h : pyIsSpace c = true) :
    normalize_whitespace (s1 ++ c :: s2) = normalize_whitespace (s1 ++ ' ' :: s2) := by
  unfold normalize_whitespace
  have hmaps : (s1 ++ c :: s2).map (fun x => if pyIsSpace x then ' ' else x) =
      (s1 ++ ' ' :: s2).map (fun x => if pyIsSpace x then ' ' else x) := by
    simp only [List.map_append, List.map_cons]
    rw [show (if pyIsSpace c then ' ' else c) = ' ' by simp [h]]
    rw [show (if pyIsSpace ' ' then ' ' else ' ') = ' ' by simp]
  rw [hmaps]

theorem nw_cons {s : List Char} {c : Char} (h : pyIsSpace c = true) :
    normalize_whitespace (c :: s) = normalize_whitespace s := by
  unfold normalize_whitespace
  simp only [List.map_cons]
  rw [show (if pyIsSpace c then ' ' else c) = ' ' by simp [h]]
  rw [List.dropWhile_cons, if_pos (show pyIsSpace ' ' = true by decide)]

theorem nw_append {s : List Char} {c : Char} (h : pyIsSpace c = true) :
    normalize_whitespace (s ++ [c]) = normalize_whitespace s := by
  unfold normalize_whitespace
  simp only [List.map_append, List.map_cons, List.map_nil]
  rw [show (if pyIsSpace c then ' ' else c) = ' ' by simp [h]]
  rw [List.dropWhile_append]
  by_cases he : (List.dropWhile pyIsSpace
      (s.map (fun x => if pyIsSpace x then ' ' else x))).isEmpty = true
  · rw [if_pos he]
    rw [List.isEmpty_iff.mp he]
    rfl
  · rw [if_neg he]
    unfold dropTrail
    rw [List.reverse_append]
    simp only [List.reverse_cons, List.reverse_nil, List.nil_append,
      List.singleton_append, List.dropWhile_cons]
    rw [if_pos (show pyIsSpace ' ' = true by decide)]

theorem ss_congr {a b : List Char} (style : Style)
    (h : normalize_whitespace a = normalize_whitespace b) :
    safe_stem a style = safe_stem b style := by
  simp only [safe_stem, h]

theorem safe_stem_nil (style : Style) : safe_stem [] style = [] := by
  simp [safe_stem, nw_nil]

theorem consHead_ne_nil (c : Char) : ∀ (ts : List (List Char)), consHead c ts ≠ []
  | [] => by simp [consHead]
  | t :: ts => by simp [consHead]

theorem splitSeps_no_sep :
    ∀ {l : List Char}, (∀ c ∈ l, isSep c = false) → splitSeps l = [l]
  | [], _ => rfl
  | c :: rest, h => by
      unfold splitSeps
      rw [if_neg (by rw [h c (List.mem_cons_self _ _)]; exact Bool.false_ne_true)]
      rw [splitSeps_no_sep (fun x hx => h x (List.mem_cons_of_mem _ hx))]
      rfl

theorem pyTitleAux_chars :
    ∀ {b : Bool} {q : List Char} {c : Char}, c ∈ pyTitleAux b q →
      ∃ x ∈ q, c = pyLower x ∨ c = pyUpper x
  | b, x :: t, c, h => by
      unfold pyTitleAux at h
      rcases List.mem_cons.mp h with hc | hc
      · refine ⟨x, List.mem_cons_self _ _, ?_⟩
        by_cases hb : b = true
        · rw [if_pos hb] at hc; exact Or.inl hc
        · rw [if_neg hb] at hc; exact Or.inr hc
      · obtain ⟨y, hy, hyy⟩ := pyTitleAux_chars hc
        exact ⟨y, List.mem_cons_of_mem _ hy, hyy⟩

theorem camel_chars {w : List Char} : ∀ c ∈ apply_camel w, pyIsAlnum c = true := by
  intro c hc
  unfold apply_camel at hc
  cases hcp : ((splitSeps w).map
      (fun part => part.filter pyIsAlnum)).filter (fun p => !p.isEmpty) with
  | nil => rw [hcp] at hc; exact absurd hc (List.not_mem_nil c)
  | cons p ps =>
      rw [hcp] at hc
      have hmem_all : ∀ t ∈ p :: ps, ∀ x ∈ t, pyIsAlnum x = true := by
        rw [← hcp]
        intro t ht x hx
        have ht1 := (List.mem_filter.mp ht).1
        obtain ⟨part, _, hpart⟩ := List.mem_map.mp ht1
        rw [← hpart] at hx
        exact (List.mem_filter.mp hx).2
      rcases List.mem_append.mp hc with h1 | h1
      · obtain ⟨x, hx, hxl⟩ := List.mem_map.mp h1
        rw [← hxl, pyIsAlnum_pyLower]
        exact hmem_all p (List.mem_cons_self _ _) x hx
      · obtain ⟨l, hl, hcl⟩ := List.mem_flatten.mp h1
        obtain ⟨q, hq, hql⟩ := List.mem_map.mp hl
        rw [← hql] at hcl
        obtain ⟨x, hx, hxx⟩ := pyTitleAux_chars hcl
        have halx := hmem_all q (List.mem_cons_of_mem _ hq) x hx
        rcases hxx with h2 | h2 <;> rw [h2]
        · rw [pyIsAlnum_pyLower]; exact halx
        · rw [pyIsAlnum_pyUpper]; exact halx

theorem apply_camel_alnum {y : List Char} (hy : y ≠ [])
    (h : ∀ c ∈ y, pyIsAlnum c = true) : apply_camel y = y.map pyLower := by
  unfold apply_camel
  have hsep : ∀ c ∈ y, isSep c = false := fun c hc => not_sep_of_alnum (h c hc)
  rw [splitSeps_no_sep hsep]
  rw [show ([y].map (fun part => part.filter pyIsAlnum)) = [y] by
    simp [List.filter_eq_self.mpr h]]
  rw [show ([y].filter (fun p => !p.isEmpty)) = [y] by
    simp [List.filter_cons, List.isEmpty_iff, hy]]
  simp

theorem ss_camel_chars (name : List Char) :
    ∀ c ∈ safe_stem name Style.camel, pyIsAlnum c = true := by
  intro c hc
  rw [safe_stem_camel_eq] at hc
  by_cases hn : normalize_whitespace name = []
  · rw [if_pos hn] at hc; exact absurd hc (List.not_mem_nil c)
  · rw [if_neg hn] at hc; exact camel_chars c hc

theorem splitSeps_head :
    ∀ (l : List Char), ∃ ts, splitSeps l = l.takeWhile (fun c => !isSep c) :: ts
  | [] => ⟨[], rfl⟩
  | c :: rest => by
      by_cases hc : isSep c = true
      · unfold splitSeps
        rw [if_pos hc, List.takeWhile_cons,
          if_neg (by rw [hc]; simp)]
        cases rest with
        | nil => exact ⟨splitSeps [], rfl⟩
        | cons r t =>
            dsimp only
            by_cases hr : isSep r = true
            · rw [if_pos hr]
              obtain ⟨ts, hts⟩ := splitSeps_head (r :: t)
              rw [List.takeWhile_cons, if_neg (by rw [hr]; simp)] at hts
              exact ⟨ts, hts⟩
            · rw [if_neg hr]
              exact ⟨splitSeps (r :: t), rfl⟩
      · unfold splitSeps
        rw [if_neg hc]
        obtain ⟨ts, hts⟩ := splitSeps_head rest
        rw [hts, List.takeWhile_cons,
          if_pos (by rw [Bool.not_eq_true] at hc; rw [hc]; simp)]
        exact ⟨ts, rfl⟩

theorem rawTokens_eq_filter :
    ∀ (l : List Char),
      rawTokens l = (splitSeps l).filter (fun t => !t.isEmpty)
  | [] => rfl
  | c :: rest => by
      by_cases hc : isSep c = true
      · unfold rawTokens splitSeps
        rw [if_pos hc, if_pos hc]
        cases rest with
        | nil => rfl
        | cons r t =>
            dsimp only
            by_cases hr : isSep r = true
            · rw [if_pos hr]
              exact rawTokens_eq_filter (r :: t)
            · rw [if_neg hr, List.filter_cons]
              simp only [List.isEmpty_nil, Bool.not_true,
                if_neg (Bool.false_ne_true)]
              exact rawTokens_eq_filter (r :: t)
      · unfold rawTokens splitSeps
        rw [if_neg hc, if_neg hc]
        cases rest with
        | nil =>
            show [[c]] = List.filter _ (consHead c (splitSeps []))
            rfl
        | cons r t =>
            dsimp only
            by_cases hr : isSep r = true
            · rw [if_pos hr]
              obtain ⟨ts, hts⟩ := splitSeps_head (r :: t)
              have htw : (r :: t).takeWhile (fun c => !isSep c) = [] := by
                rw [List.takeWhile_cons, if_neg (by rw [hr]; simp)]
              rw [htw] at hts
              have hIH := rawTokens_eq_filter (r :: t)
              rw [hts, List.filter_cons] at hIH
              simp only [List.isEmpty_nil, Bool.not_true,
                if_neg (Bool.false_ne_true)] at hIH
              rw [hts]
              show [c] :: rawTokens (r :: t) =
                List.filter (fun t => !t.isEmpty) (([c] : List Char) :: ts)
              rw [List.filter_cons, if_pos (by simp), hIH]
            · rw [if_neg hr]
              obtain ⟨ts, hts⟩ := splitSeps_head (r :: t)
              have htw : (r :: t).takeWhile (fun c => !isSep c) =
                  r :: t.takeWhile (fun c => !isSep c) := by
                rw [List.takeWhile_cons,
                  if_pos (by rw [Bool.not_eq_true] at hr; rw [hr]; simp)]
              rw [htw] at hts
              have hIH := rawTokens_eq_filter (r :: t)
              rw [hts, List.filter_cons, if_pos (by simp)] at hIH
              rw [hts, hIH]
              show (c :: r :: t.takeWhile (fun c => !isSep c)) ::
                  List.filter (fun t => !t.isEmpty) ts =
                List.filter (fun t => !t.isEmpty)
                  ((c :: r :: t.takeWhile (fun c => !isSep c)) :: ts)
              rw [List.filter_cons, if_pos (by simp)]

theorem filter_map_clean {f : List Char → List Char} (hf : f [] = []) :
    ∀ (L : List (List Char)),
      ((L.filter (fun t => !t.isEmpty)).map f).filter (fun t => !t.isEmpty) =
        (L.map f).filter (fun t => !t.isEmpty)
  | [] => rfl
  | t :: L => by
      by_cases ht : t.isEmpty = true
      · have ht' : t = [] := List.isEmpty_iff.mp ht
        subst ht'
        rw [List.filter_cons]
        simp only [List.isEmpty_nil, Bool.not_true, if_neg (Bool.false_ne_true)]
        rw [List.map_cons, hf, List.filter_cons]
        simp only [List.isEmpty_nil, Bool.not_true, if_neg (Bool.false_ne_true)]
        exact filter_map_clean hf L
      · have ht2 : (!t.isEmpty) = true := by
          rw [Bool.eq_false_iff.mpr ht]; rfl
        rw [List.filter_cons, if_pos ht2, List.map_cons, List.map_cons,
          List.filter_cons, List.filter_cons]
        by_cases hft : (!(f t).isEmpty) = true
        · rw [if_pos hft, if_pos hft, filter_map_clean hf L]
        · rw [if_neg hft, if_neg hft]
          exact filter_map_clean hf L

theorem pyTitleSpecAux_eq :
    ∀ (l : List Char) (prev : Option Char),
      pyTitleSpecAux prev l =
        pyTitleAux (match prev with | none => false | some p => pyIsCased p) l
  | [], prev => by cases prev <;> rfl
  | c :: rest, prev => by
      unfold pyTitleSpecAux pyTitleAux
      cases prev with
      | none =>
          dsimp only
          rw [if_neg (Bool.false_ne_true), pyTitleSpecAux_eq rest (some c)]
      | some p =>
          dsimp only
          rw [pyTitleSpecAux_eq rest (some c)]

theorem pyTitle_eq_spec : pyTitle = pyTitleSpecAux none :=
  funext (fun q => (pyTitleSpecAux_eq q none).symm)

theorem camel_eq_spec (s : List Char) : safe_stem s Style.camel = camelSpec s := by
  rw [safe_stem_camel_eq]
  unfold camelSpec
  by_cases hn : normalize_whitespace s = []
  · rw [if_pos hn, hn]
    rfl
  · rw [if_neg hn]
    unfold apply_camel
    have htok : ((splitSeps (normalize_whitespace s)).map
        (fun part => part.filter pyIsAlnum)).filter (fun p => !p.isEmpty) =
        ((rawTokens (normalize_whitespace s)).map
          (fun t => t.filter pyIsAlnum)).filter (fun t => !t.isEmpty) := by
      rw [rawTokens_eq_filter]
      exact (filter_map_clean rfl _).symm
    rw [htok, pyTitle_eq_spec]

theorem camel_second_pass (s : List Char) :
    safe_stem (safe_stem s Style.camel) Style.camel =
      (safe_stem s Style.camel).map pyLower := by
  by_cases hy : safe_stem s Style.camel = []
  · rw [hy, safe_stem_nil]
    rfl
  · have hal := ss_camel_chars s
    have hnsp : ∀ c ∈ safe_stem s Style.camel, pyIsSpace c = false :=
      fun c hc => not_space_of_alnum (hal c hc)
    rw [safe_stem_camel_eq (safe_stem s Style.camel), nw_noop hnsp, if_neg hy]
    exact apply_camel_alnum hy hal

theorem rc_frame (fs : FS) (orig : PurePath) (td : Option PurePath) (style : Style) :
    (rename_checked fs orig td true style).2 = fs ∧
    (∀ dry e, (rename_checked fs orig td dry style).1 = .error e →
      (rename_checked fs orig td dry style).2 = fs) ∧
    (∀ p, (rename_checked fs orig td false style).1 = .ok p →
      (rename_checked fs orig td false style).2 = fsRename fs orig p ∧
      (rename_checked fs orig td true style).1 = .ok p) := by
  unfold rename_checked
  cases hm : make_safe_path orig td style with
  | error e =>
      exact ⟨rfl, fun _ _ _ => rfl, fun p hp => by simp at hp⟩
  | ok q =>
      refine ⟨by simp, ?_, ?_⟩
      · intro dry e he
        cases dry with
        | true => simp at he
        | false =>
            by_cases hex : fsExists fs q = true
            · simp [hex]
            · simp [hex] at he
      · intro p hp
        by_cases hex : fsExists fs q = true
        · simp [hex] at hp
        · simp only [hex, Bool.not_false, Bool.true_and, Bool.not_true,
            Bool.false_and, if_false, if_true] at hp ⊢
          simp at hp
          subst hp
          simp


theorem rename_checked_outcomes (fs : FS) (orig : PurePath)
    (td : Option PurePath) (style : Style) :
    (∃ e, ∀ dry, rename_checked fs orig td dry style = (.error e, fs)) ∨
    (∃ p, rename_checked fs orig td true style = (.ok p, fs) ∧
      ((∃ e, rename_checked fs orig td false style = (.error e, fs)) ∨
        rename_checked fs orig td false style = (.ok p, fsRename fs orig p))) := by
  unfold rename_checked
  cases hm : make_safe_path orig td style with
  | error e => exact Or.inl ⟨e, fun dry => rfl⟩
  | ok q =>
      refine Or.inr ⟨q, by simp, ?_⟩
      by_cases hex : fsExists fs q = true
      · exact Or.inl ⟨.alreadyExists q, by simp [hex]⟩
      · exact Or.inr (by simp [hex])

theorem rename_file_outcomes (fs : FS) (orig : PurePath)
    (td : Option PurePath) (style : Style) :
    (∃ e, ∀ dry, rename_file fs orig td dry style = (.error e, fs)) ∨
    (∃ p, rename_file fs orig td true style = (.ok p, fs) ∧
      ((∃ e, rename_file fs orig td false style = (.error e, fs)) ∨
        rename_file fs orig td false style = (.ok p, fsRename fs orig p))) := by
  by_cases h1 : orig ∈ fs.symlinks
  · refine Or.inl ⟨.symlinkRefused orig, fun dry => ?_⟩
    unfold rename_file
    rw [if_pos h1]
  · by_cases h2 : orig ∉ fs.files
    · refine Or.inl ⟨.notFound orig, fun dry => ?_⟩
      unfold rename_file
      rw [if_neg h1, if_pos h2]
    · cases td with
      | some t =>
          by_cases h3 : t ∉ fs.dirs
          · refine Or.inl ⟨.invalidTarget t, fun dry => ?_⟩
            unfold rename_file
            rw [if_neg h1, if_neg h2]
            dsimp only
            rw [if_pos h3]
          · have hred : ∀ dry, rename_file fs orig (some t) dry style =
                rename_checked fs orig (some t) dry style := by
              intro dry
              unfold rename_file
              rw [if_neg h1, if_neg h2]
              dsimp only
              rw [if_neg h3]
            rcases rename_checked_outcomes fs orig (some t) style with ⟨e, he⟩ | ⟨p, hpt, hrest⟩
            · exact Or.inl ⟨e, fun dry => by rw [hred dry, he dry]⟩
            · refine Or.inr ⟨p, by rw [hred true, hpt], ?_⟩
              rcases hrest with ⟨e2, he2⟩ | hok
              · exact Or.inl ⟨e2, by rw [hred false, he2]⟩
              · exact Or.inr (by rw [hred false, hok])
      | none =>
          have hred : ∀ dry, rename_file fs orig none dry style =
              rename_checked fs orig none dry style := by
            intro dry
            unfold rename_file
            rw [if_neg h1, if_neg h2]
          rcases rename_checked_outcomes fs orig none style with ⟨e, he⟩ | ⟨p, hpt, hrest⟩
          · exact Or.inl ⟨e, fun dry => by rw [hred dry, he dry]⟩
          · refine Or.inr ⟨p, by rw [hred true, hpt], ?_⟩
            rcases hrest with ⟨e2, he2⟩ | hok
            · exact Or.inl ⟨e2, by rw [hred false, he2]⟩
            · exact Or.inr (by rw [hred false, hok])

/-- C1 counterexample: the claim that `normalize` output contains only
lower-case ASCII alphanumerics plus the style's delimiters (none for
camel), every non-ASCII character being filtered out, is false: camel
output `"aB"` contains the upper-case `B` while camel admits no
delimiter, and the non-ASCII alphanumeric `é` survives web
normalization unfiltered. -/
theorem claim_C1_counterexample :
    (safe_stem "a b".toList Style.camel = "aB".toList ∧
      'B' ∈ safe_stem "a b".toList Style.camel ∧
      ¬((97 ≤ 'B'.toNat ∧ 'B'.toNat ≤ 122) ∨ (48 ≤ 'B'.toNat ∧ 'B'.toNat ≤ 57)) ∧
      styleDelims Style.camel = []) ∧
    (safe_stem "café".toList Style.web = "café".toList ∧
      'é' ∈ safe_stem "café".toList Style.web ∧ 127 < 'é'.toNat) := by
  decide

/-- C1 (amended): every character of `safe_stem` output is alphanumeric in
Python's Unicode sense (so non-ASCII alphanumerics are retained, not
filtered out) or one of the style's delimiter characters; for the
delimiter styles web, snake and kebab every output character is
additionally fixed under lower-casing, while camel title-casing may
produce upper-case letters. -/
theorem claim_C1_output_alphabet (s : List Char) (style : Style) (c : Char)
    (h : c ∈ safe_stem s style) :
    (pyIsAlnum c = true ∨ c ∈ styleDelims style) ∧
    (style ≠ Style.camel → pyLower c = c) := by
  cases style with
  | camel => exact ⟨Or.inl (ss_camel_chars s c h), fun hne => absurd rfl hne⟩
  | web =>
      have hc := ss_delim_chars s Style.web '-' [' ', '.']
        rfl (by decide) (by decide) c h
      refine ⟨?_, fun _ => hc.1⟩
      rcases hc.2 with ha | hm
      · exact Or.inl ha
      · refine Or.inr ?_
        have heq : styleDelims Style.web = allowedSet '-' [' ', '.'] := by decide
        rw [heq]
        exact hm
  | snake =>
      have hc := ss_delim_chars s Style.snake '_' [' ', '.', '-']
        rfl (by decide) (by decide) c h
      refine ⟨?_, fun _ => hc.1⟩
      rcases hc.2 with ha | hm
      · exact Or.inl ha
      · refine Or.inr ?_
        have heq : styleDelims Style.snake = allowedSet '_' [' ', '.', '-'] := by decide
        rw [heq]
        exact hm
  | kebab =>
      have hc := ss_delim_chars s Style.kebab '-' [' ', '.', '_']
        rfl (by decide) (by decide) c h
      refine ⟨?_, fun _ => hc.1⟩
      rcases hc.2 with ha | hm
      · exact Or.inl ha
      · refine Or.inr ?_
        have heq : styleDelims Style.kebab = allowedSet '-' [' ', '.', '_'] := by decide
        rw [heq]
        exact hm

theorem claim_C1_witness :
    'B' ∈ safe_stem "a b".toList Style.camel ∧
    ((pyIsAlnum 'B' = true ∨ 'B' ∈ styleDelims Style.camel) ∧
      (Style.camel ≠ Style.camel → pyLower 'B' = 'B')) :=
  ⟨by decide, claim_C1_output_alphabet "a b".toList Style.camel 'B' (by decide)⟩

/-- C2: `safe_stem` is idempotent for the web, snake and kebab styles,
for every input. -/
theorem claim_C2_idempotent (s : List Char) :
    safe_stem (safe_stem s Style.web) Style.web = safe_stem s Style.web ∧
    safe_stem (safe_stem s Style.snake) Style.snake = safe_stem s Style.snake ∧
    safe_stem (safe_stem s Style.kebab) Style.kebab = safe_stem s Style.kebab :=
  ⟨ss_delim_idem s Style.web '-' [' ', '.'] rfl (by decide) (by decide)
      (by decide) (by decide),
   ss_delim_idem s Style.snake '_' [' ', '.', '-'] rfl (by decide) (by decide)
      (by decide) (by decide),
   ss_delim_idem s Style.kebab '-' [' ', '.', '_'] rfl (by decide) (by decide)
      (by decide) (by decide)⟩

/-- C3: when the original path is a symbolic link, `rename_file` fails
with `SymlinkRefusedError` regardless of `dry_run` and of every other
condition (target validity, file existence, stem emptiness), and the
filesystem is unchanged: the symlink check is the first precondition. -/
theorem claim_C3_symlink_refused (fs : FS) (orig : PurePath)
    (td : Option PurePath) (dry : Bool) (style : Style)
    (h : orig ∈ fs.symlinks) :
    rename_file fs orig td dry style = (.error (.symlinkRefused orig), fs) := by
  unfold rename_file
  rw [if_pos h]

theorem claim_C3_witness :
    (⟨"/d".toList, "link.txt".toList⟩ : PurePath) ∈
      (FS.mk [⟨"/d".toList, "link.txt".toList⟩] [] []).symlinks ∧
    rename_file (FS.mk [⟨"/d".toList, "link.txt".toList⟩] [] [])
        ⟨"/d".toList, "link.txt".toList⟩ (some ⟨"/d".toList, "no dir".toList⟩)
        true Style.web =
      (.error (.symlinkRefused ⟨"/d".toList, "link.txt".toList⟩),
        FS.mk [⟨"/d".toList, "link.txt".toList⟩] [] []) :=
  ⟨by decide, claim_C3_symlink_refused _ _ _ _ _ (by decide)⟩

/-- C4: a dry run leaves the filesystem unchanged; every error path
leaves the filesystem unchanged; a successful non-dry run performs
exactly the single rename mutation, and the dry run returns the same
path the successful non-dry run produces. -/
theorem claim_C4_frame (fs : FS) (orig : PurePath) (td : Option PurePath)
    (style : Style) :
    (rename_file fs orig td true style).2 = fs ∧
    (∀ dry e, (rename_file fs orig td dry style).1 = .error e →
      (rename_file fs orig td dry style).2 = fs) ∧
    (∀ p, (rename_file fs orig td false style).1 = .ok p →
      (rename_file fs orig td false style).2 = fsRename fs orig p ∧
      (rename_file fs orig td true style).1 = .ok p) := by
  rcases rename_file_outcomes fs orig td style with ⟨e, he⟩ | ⟨p, hpt, hrest⟩
  · refine ⟨by rw [he true], ?_, ?_⟩
    · intro dry e' _
      rw [he dry]
    · intro p hp
      rw [he false] at hp
      simp at hp
  · refine ⟨by rw [hpt], ?_, ?_⟩
    · intro dry e' herr
      cases dry with
      | true => rw [hpt] at herr; simp at herr
      | false =>
          rcases hrest with ⟨e2, he2⟩ | hok
          · rw [he2]
          · rw [hok] at herr; simp at herr
    · intro p' hp'
      rcases hrest with ⟨e2, he2⟩ | hok
      · rw [he2] at hp'
        simp at hp'
      · rw [hok] at hp'
        simp only [Except.ok.injEq] at hp'
        subst hp'
        exact ⟨by rw [hok], by rw [hpt]⟩

theorem claim_C4_witness :
    (rename_file (FS.mk [] [⟨"/d".toList, "A B.TXT".toList⟩] [])
        ⟨"/d".toList, "A B.TXT".toList⟩ none true Style.web).2 =
      FS.mk [] [⟨"/d".toList, "A B.TXT".toList⟩] [] ∧
    ((rename_file (FS.mk [] [⟨"/d".toList, "A B.TXT".toList⟩] [])
        ⟨"/d".toList, "A B.TXT".toList⟩ none false Style.web).2 =
      fsRename (FS.mk [] [⟨"/d".toList, "A B.TXT".toList⟩] [])
        ⟨"/d".toList, "A B.TXT".toList⟩ ⟨"/d".toList, "a-b.txt".toList⟩ ∧
     (rename_file (FS.mk [] [⟨"/d".toList, "A B.TXT".toList⟩] [])
        ⟨"/d".toList, "A B.TXT".toList⟩ none true Style.web).1 =
      .ok ⟨"/d".toList, "a-b.txt".toList⟩) :=
  ⟨(claim_C4_frame _ _ _ _).1,
   (claim_C4_frame _ _ _ _).2.2 ⟨"/d".toList, "a-b.txt".toList⟩ (by rfl)⟩

/-- C5: `make_safe_path` fails, with an `EmptyResultError` naming the
original filename, exactly when the stem normalizes to the empty string;
otherwise it returns the normalized stem with the lower-cased original
suffix appended unchanged, placed in the target directory when one is
supplied and next to the original otherwise. -/
theorem claim_C5_build_safe_path (orig : PurePath) (td : Option PurePath)
    (style : Style) :
    (make_safe_path orig td style = .error (.emptyResult orig.name) ↔
      safe_stem (pathStem orig) style = []) ∧
    (∀ e, make_safe_path orig td style = .error e →
      e = .emptyResult orig.name) ∧
    (safe_stem (pathStem orig) style ≠ [] →
      make_safe_path orig td style = .ok (match td with
        | some t => joinpath t
            (safe_stem (pathStem orig) style ++ (pathSuffix orig).map pyLower)
        | none => withName orig
            (safe_stem (pathStem orig) style ++ (pathSuffix orig).map pyLower))) := by
  unfold make_safe_path
  by_cases hs : safe_stem (pathStem orig) style = []
  · rw [if_pos hs]
    refine ⟨⟨fun _ => hs, fun _ => rfl⟩, fun e he => ?_, fun hne => absurd hs hne⟩
    injection he with h1
    exact h1.symm
  · rw [if_neg hs]
    cases td with
    | some t =>
        refine ⟨⟨fun hcontra => ?_, fun hcontra => absurd hcontra hs⟩,
          fun e he => ?_, fun _ => rfl⟩
        · simp at hcontra
        · simp at he
    | none =>
        refine ⟨⟨fun hcontra => ?_, fun hcontra => absurd hcontra hs⟩,
          fun e he => ?_, fun _ => rfl⟩
        · simp at hcontra
        · simp at he

theorem claim_C5_witness :
    make_safe_path ⟨"/t".toList, "!!!.txt".toList⟩ none Style.web =
      .error (.emptyResult "!!!.txt".toList) ∧
    make_safe_path ⟨"/t".toList, "My File.TXT".toList⟩
        (some ⟨"/u".toList, "sub".toList⟩) Style.web =
      .ok ⟨"/u".toList ++ '/' :: "sub".toList, "my-file.txt".toList⟩ :=
  ⟨(claim_C5_build_safe_path ⟨"/t".toList, "!!!.txt".toList⟩ none
      Style.web).1.mpr (by decide),
   by
     have h := (claim_C5_build_safe_path ⟨"/t".toList, "My File.TXT".toList⟩
       (some ⟨"/u".toList, "sub".toList⟩) Style.web).2.2 (by decide)
     rw [h]
     rfl⟩

/-- C6 counterexample: the claim that each later camel segment becomes
first-character-upper-with-remainder-lower (so that `a1b` becomes `A1b`)
is false: Python `str.title` starts a new capitalised run after the
digit, so `safe_stem "x a1b" camel` is `"xA1B"`, not `"xA1b"`. -/
theorem claim_C6_counterexample :
    safe_stem "x a1b".toList Style.camel = "xA1B".toList ∧
    safe_stem "x a1b".toList Style.camel ≠ "xA1b".toList := by
  decide

/-- C6 (amended): camel normalization equals the spec-side recomputation:
split the whitespace-normalized input on maximal runs of space, dot,
hyphen, underscore; keep only alphanumerics per segment; drop empty
segments; join the entirely lower-cased first segment with the later
segments title-cased in Python's sense — a character is upper-cased when
its predecessor in the segment is absent or uncased (so a letter after a
digit is upper-cased: `a1b` becomes `A1B`), and lower-cased otherwise. -/
theorem claim_C6_camel_algorithm (s : List Char) :
    safe_stem s Style.camel = camelSpec s :=
  camel_eq_spec s

/-- C7: camel style is not idempotent; a second camel pass lower-cases
the entire first output. -/
theorem claim_C7_camel_not_idempotent :
    safe_stem (safe_stem "a b".toList Style.camel) Style.camel ≠
      safe_stem "a b".toList Style.camel ∧
    ∀ s : List Char,
      safe_stem (safe_stem s Style.camel) Style.camel =
        (safe_stem s Style.camel).map pyLower :=
  ⟨by decide, camel_second_pass⟩

/-- C8: every Python whitespace code point behaves exactly like an ASCII
space under `safe_stem`, for every style: replacing an occurrence by a
space never changes the output, and leading or trailing whitespace is
trimmed away. -/
theorem claim_C8_whitespace_equiv (s1 s2 s : List Char) (c : Char)
    (style : Style) (h : pyIsSpace c = true) :
    safe_stem (s1 ++ c :: s2) style = safe_stem (s1 ++ ' ' :: s2) style ∧
    safe_stem (c :: s) style = safe_stem s style ∧
    safe_stem (s ++ [c]) style = safe_stem s style :=
  ⟨ss_congr style (nw_replace h), ss_congr style (nw_cons h),
   ss_congr style (nw_append h)⟩

theorem claim_C8_witness :
    pyIsSpace (Char.ofNat 0xa0) = true ∧
    (safe_stem ("hello".toList ++ Char.ofNat 0xa0 :: "world".toList) Style.web =
        safe_stem ("hello".toList ++ ' ' :: "world".toList) Style.web ∧
      safe_stem (Char.ofNat 0xa0 :: "hi".toList) Style.web =
        safe_stem "hi".toList Style.web ∧
      safe_stem ("hi".toList ++ [Char.ofNat 0xa0]) Style.web =
        safe_stem "hi".toList Style.web) :=
  ⟨by decide, claim_C8_whitespace_equiv "hello".toList "world".toList
    "hi".toList (Char.ofNat 0xa0) Style.web (by decide)⟩

/-- C9: for the delimiter styles the output never contains two adjacent
delimiter characters, and neither starts nor ends with the delimiter. -/
theorem claim_C9_collapse_trim (s : List Char) :
    (hasDD '-' (safe_stem s Style.web) = false ∧
      (safe_stem s Style.web).head? ≠ some '-' ∧
      (safe_stem s Style.web).getLast? ≠ some '-') ∧
    (hasDD '_' (safe_stem s Style.snake) = false ∧
      (safe_stem s Style.snake).head? ≠ some '_' ∧
      (safe_stem s Style.snake).getLast? ≠ some '_') ∧
    (hasDD '-' (safe_stem s Style.kebab) = false ∧
      (safe_stem s Style.kebab).head? ≠ some '-' ∧
      (safe_stem s Style.kebab).getLast? ≠ some '-') :=
  ⟨ss_delim_shape s Style.web '-' [' ', '.'] rfl (by decide),
   ss_delim_shape s Style.snake '_' [' ', '.', '-'] rfl (by decide),
   ss_delim_shape s Style.kebab '-' [' ', '.', '_'] rfl (by decide)⟩

/-- C10: in web style the underscore is exempt from collapsing and
trimming because only the hyphen is the delimiter: any string of
lower-fixed alphanumerics, underscores and hyphens that has no doubled
hyphen and neither starts nor ends with a hyphen — including underscore
runs, leading and trailing underscores, and mixed hyphen/underscore runs
— passes through web normalization unchanged. -/
theorem claim_C10_web_underscore_exempt (s : List Char)
    (h : ∀ c ∈ s, (pyIsAlnum c = true ∧ pyLower c = c) ∨ c = '_' ∨ c = '-')
    (hdd : hasDD '-' s = false)
    (hh : s.head? ≠ some '-') (hl : s.getLast? ≠ some '-') :
    safe_stem s Style.web = s := by
  by_cases hnil : s = []
  · rw [hnil]
    exact safe_stem_nil _
  · have hchars : ∀ c ∈ s,
        pyLower c = c ∧ (pyIsAlnum c = true ∨ c ∈ allowedSet '-' [' ', '.']) := by
      intro c hc
      rcases h c hc with ⟨ha, hfix⟩ | hc' | hc'
      · exact ⟨hfix, Or.inl ha⟩
      · subst hc'; exact ⟨by decide, Or.inr (by decide)⟩
      · subst hc'; exact ⟨by decide, Or.inr (by decide)⟩
    have hnsp : ∀ c ∈ s, pyIsSpace c = false := by
      intro c hc
      rcases (hchars c hc).2 with ha | hm
      · exact not_space_of_alnum ha
      · have hcm : c = '-' ∨ c = '_' := by
          have heq : allowedSet '-' [' ', '.'] = ['-', '_'] := by decide
          rw [heq] at hm
          simpa using hm
        rcases hcm with h1 | h1 <;> (subst h1; decide)
    rw [safe_stem_delim s Style.web '-' [' ', '.'] rfl (by decide),
      nw_noop hnsp, if_neg hnil]
    refine ads_noop hchars hdd ?_ ?_ (by decide)
    · intro c hc hcd
      exact hh (by rw [hc, hcd])
    · intro c hc hcd
      exact hl (by rw [hc, hcd])

theorem claim_C10_witness :
    (∀ c ∈ "_a__b_-_x".toList,
      (pyIsAlnum c = true ∧ pyLower c = c) ∨ c = '_' ∨ c = '-') ∧
    safe_stem "_a__b_-_x".toList Style.web = "_a__b_-_x".toList :=
  ⟨by decide, claim_C10_web_underscore_exempt "_a__b_-_x".toList
    (by decide) (by decide) (by decide) (by decide)⟩
